import Mathlib

/-!
A verification development for `ipfs_scraper.py`, an AceStream playlist
scraper.  The script is embedded shallowly:

* the fetched HTML document is modelled as the list of the text contents of
  its `<script>` elements (the only DOM feature the script uses is locating
  a script tag by a content pattern);
* the regular-expression scans of `extract_from_script` are implemented
  character by character over `List Char`, reproducing Python `re`
  semantics for the concrete patterns used (lazy `.*?` with backtracking,
  greedy `\s*` and `[\w\d]+` followed by literals they cannot overlap);
* the network is an oracle `Nat → Option document` giving each fetch
  attempt's outcome; `scrape` threads the mutable `self.timeout` and
  `retries_left` explicitly and additionally records the timeout used on
  each attempt, so that the retry/backoff behaviour is observable;
* the file writers produce the written string; `main` produces its list of
  console/file effects.

Note: every literal `{` / `}` character appearing in string literals below
is written with its escape `\x7b` / `\x7d`.
-/

namespace IpfsScraper

/-- Python `\s` on ASCII input: space, tab, newline, carriage return,
vertical tab, form feed. -/
def isWS (c : Char) : Bool :=
  c = ' ' || c = '\t' || c = '\n' || c = '\r' || c = '\x0b' || c = '\x0c'

/-- Python `[\w\d]` on ASCII input: letters, digits, underscore. -/
def isWordChar (c : Char) : Bool :=
  ('a' ≤ c && c ≤ 'z') || ('A' ≤ c && c ≤ 'Z') || ('0' ≤ c && c ≤ '9') || c = '_'

/-- Greedy `\s*`: drop the maximal whitespace run. -/
def dropWS : List Char → List Char
  | [] => []
  | c :: rest => if isWS c then dropWS rest else c :: rest

/-- The maximal whitespace run itself (what greedy `\s*` consumes). -/
def takeWS : List Char → List Char
  | [] => []
  | c :: rest => if isWS c then c :: takeWS rest else []

/-- Greedy `[\w\d]*`: the maximal word-character run and the remainder.
The patterns below use it followed by `"`, which is not a word character,
so maximal munch agrees with the regex engine. -/
def takeWord : List Char → List Char × List Char
  | [] => ([], [])
  | c :: rest =>
    if isWordChar c then
      let (w, r) := takeWord rest
      (c :: w, r)
    else ([], c :: rest)

/-- Match a literal: if `lit` is a prefix of `s`, return the rest. -/
def stripLit : List Char → List Char → Option (List Char)
  | [], s => some s
  | _ :: _, [] => none
  | p :: ps, c :: cs => if p = c then stripLit ps cs else none

/-- Substring test, as Python `in` / `re.search` of a literal pattern. -/
def hasSub (needle : List Char) : List Char → Bool
  | [] => (stripLit needle []).isSome
  | s@(_ :: rest) => if (stripLit needle s).isSome then true else hasSub needle rest

/-- The marker `const linksData` looked for in script tags (line 49). -/
def marker : List Char := "const linksData".data

/-- Line 49: `soup.find('script', text=re.compile(r'const linksData'))` —
the first script whose text contains the marker. -/
def findLinksScript (doc : List String) : Option String :=
  doc.find? (fun sc => hasSub marker sc.data)

/-- The lazy part of `re.search(r'const linksData\s*=\s*(\{.*?\}\s*);', s,
re.DOTALL)` once the leading `const linksData\s*=\s*\x7b` has been
consumed: with `.` matching any character (DOTALL), extend the capture
minimally until `\x7d\s*;` matches.  `acc` holds the capture so far,
reversed. -/
def lazyBraces (acc : List Char) : List Char → Option (List Char)
  | [] => none
  | c :: rest =>
    if c = '\x7d' then
      match dropWS rest with
      | ';' :: _ => some (acc.reverse ++ c :: takeWS rest)
      | _ => lazyBraces (c :: acc) rest
    else lazyBraces (c :: acc) rest

/-- Attempt the whole `const linksData\s*=\s*(\{.*?\}\s*);` pattern at the
head of `s`; on success return capture group 1 (the object literal together
with the trailing whitespace before the `;`). -/
def matchLinksDataAt (s : List Char) : Option (List Char) :=
  match stripLit marker s with
  | none => none
  | some s1 =>
    match dropWS s1 with
    | '=' :: s2 =>
      match dropWS s2 with
      | '\x7b' :: s3 =>
        match lazyBraces [] s3 with
        | none => none
        | some cap => some ('\x7b' :: cap)
      | _ => none
    | _ => none

/-- Line 52: `re.search` of the linksData pattern — try every position from
the left, first match wins. -/
def searchLinksData : List Char → Option (List Char)
  | [] => none
  | s@(_ :: rest) =>
    match matchLinksDataAt s with
    | some cap => some cap
    | none => searchLinksData rest

/-- Literal `"url":` of the record pattern. -/
def urlKey : List Char := "\"url\":".data

/-- Literal `acestream://` of the record pattern. -/
def aceScheme : List Char := "acestream://".data

/-- The continuation that must follow the lazily captured name:
`",\s*"url":\s*"(acestream://[\w\d]+)"\s*\x7d`.  On success it returns the
identifier token (capture group 2 without the scheme, exactly what
`url.split('acestream://')[1]` recovers on line 64, since the token is made
of word characters and cannot contain the scheme) and the remainder after
the closing brace. -/
def recTail (s : List Char) : Option (String × List Char) :=
  match s with
  | '"' :: ',' :: s1 =>
    match stripLit urlKey (dropWS s1) with
    | none => none
    | some s2 =>
      match dropWS s2 with
      | '"' :: s3 =>
        match stripLit aceScheme s3 with
        | none => none
        | some s4 =>
          let (tok, s5) := takeWord s4
          if tok = [] then none
          else
            match s5 with
            | '"' :: s6 =>
              match dropWS s6 with
              | '\x7d' :: rest => some (String.mk tok, rest)
              | _ => none
            | _ => none
      | _ => none
  | _ => none

/-- Lazy `(.*?)` for the record's name (no DOTALL, so it cannot cross a
newline): at each position first try the continuation `recTail`; if it
fails, consume one (non-newline) character into the capture and continue.
`acc` holds the capture so far, reversed.  At the end of the input the
continuation cannot match (it needs at least one character), so the whole
attempt fails there. -/
def lazyName (acc : List Char) : List Char → Option ((String × String) × List Char)
  | [] => none
  | c :: rest =>
    match recTail (c :: rest) with
    | some (tok, r2) => some ((String.mk acc.reverse, tok), r2)
    | none => if c = '\n' then none else lazyName (c :: acc) rest

/-- Literal `"name":` of the record pattern. -/
def nameKey : List Char := "\"name\":".data

/-- Attempt the record pattern
`\x7b\s*"name":\s*"(.*?)",\s*"url":\s*"(acestream://[\w\d]+)"\s*\x7d`
(line 59) at the head of `s`; on success return the captured
(name, identifier token) and the remainder after the match. -/
def matchRecordAt (s : List Char) : Option ((String × String) × List Char) :=
  match s with
  | '\x7b' :: s1 =>
    match stripLit nameKey (dropWS s1) with
    | none => none
    | some s2 =>
      match dropWS s2 with
      | '"' :: s3 => lazyName [] s3
      | _ => none
  | _ => none

/-- The scan of `re.finditer`: try the record pattern at each position,
left to right; after a match continue at its end (matches do not overlap).
The fuel is an upper bound on the number of steps; each step consumes at
least one character, so `s.length` steps always suffice. -/
def findRecordsGo : Nat → List Char → List (String × String)
  | 0, _ => []
  | _, [] => []
  | fuel + 1, s@(_ :: rest) =>
    match matchRecordAt s with
    | some (p, r) => p :: findRecordsGo fuel r
    | none => findRecordsGo fuel rest

/-- Line 59: all matches of the record pattern in the isolated linksData
text, in order, as (name, identifier token) pairs. -/
def findRecords (s : List Char) : List (String × String) :=
  findRecordsGo s.length s

/-- Lines 61–68: the extraction loop.  `seen` models
`self.identified_ids`; the loop appends `(channel_id, name)` and records
the identifier when `channel_id` is non-empty and unseen.  Returns the
appended channels and the updated seen set (modelled as a list, consulted
only through membership). -/
def extractLoop (seen : List String) : List (String × String) → List (String × String) × List String
  | [] => ([], seen)
  | (name, tok) :: rest =>
    if tok ≠ "" ∧ tok ∉ seen then
      ((tok, name) :: (extractLoop (tok :: seen) rest).1, (extractLoop (tok :: seen) rest).2)
    else extractLoop seen rest

/-- The occurrence list of a document: the record matches of the isolated
linksData substring of the first marker-bearing script, or `[]` when the
marker or the inner pattern is absent. -/
def recordsOfDoc (doc : List String) : List (String × String) :=
  match findLinksScript doc with
  | none => []
  | some sc =>
    match searchLinksData sc.data with
    | none => []
    | some jsonText => findRecords jsonText

/-- Lines 44–70: `extract_from_script`.  Returns the extracted channels and
the updated seen set; both fallbacks (no marker-bearing script, inner
pattern miss) return the empty list with the seen set unchanged. -/
def extract_from_script (seen : List String) (doc : List String) :
    List (String × String) × List String :=
  match findLinksScript doc with
  | none => ([], seen)
  | some sc =>
    match searchLinksData sc.data with
    | none => ([], seen)
    | some jsonText => extractLoop seen (findRecords jsonText)

/-- Line 21: `self.identified_ids = set()` — the seen set starts empty. -/
def init_identified_ids : List String := []

/-- Lines 72–97: the body of `scrape`.  `fetch` is the network oracle
(`fetch attempt = some doc` when the attempt's GET succeeds and the parsed
document has scripts `doc`).  The first argument counts the attempts still
permitted: the Python loop runs while `retries_left >= 0`, decrements on
failure and breaks once it goes below zero, so with `retries_left`
initially `r` exactly `r + 1` attempts can happen; `timeout` grows by 5
after each failure that leaves retries.  Besides the channel list the
model returns the timeout used on each attempt, so the backoff behaviour
is part of the result. -/
def scrapeGo (fetch : Nat → Option (List String)) :
    Nat → Nat → Nat → List String → List (String × String) →
    List (String × String) × List Nat
  | 0, _, _, _, acc => (acc, [])
  | n + 1, attempt, timeout, seen, acc =>
    match fetch attempt with
    | some doc => (acc ++ (extract_from_script seen doc).1, [timeout])
    | none =>
      match scrapeGo fetch n (attempt + 1) (timeout + 5) seen acc with
      | (res, ts) => (res, timeout :: ts)

/-- `scrape()` on a freshly constructed `AceStreamScraper(url, timeout,
retries)`: empty seen set, empty accumulated channel list, `retries + 1`
attempts permitted. -/
def scrape (fetch : Nat → Option (List String)) (timeout retries : Nat) :
    List (String × String) × List Nat :=
  scrapeGo fetch (retries + 1) 0 timeout [] []

/-- Line 109's fixed prefix of a legacy playback line. -/
def legacyUriMark : String := "http://127.0.0.1:6878/ace/getstream?id="

/-- Lines 103–110: `save_to_file` — the full text written to
`acestream_channels.txt`, accumulated write by write. -/
def save_to_file (channels : List (String × String)) : String :=
  channels.foldl
    (fun acc c => acc ++ ("#EXTINF:-1," ++ c.2 ++ "\n" ++ legacyUriMark ++ c.1 ++ "\n"))
    ("#EXTM3U" ++ "\n")

/-- Lines 112–119: `save_to_m3u` — the full text written to
`acestream_playlist.m3u`. -/
def save_to_m3u (channels : List (String × String)) : String :=
  channels.foldl
    (fun acc c => acc ++ ("#EXTINF:-1," ++ c.2 ++ "\n" ++ "acestream://" ++ c.1 ++ "\n"))
    ("#EXTM3U" ++ "\n")

/-- Split a character list into its newline-separated lines (the shape
`str.split("\n")` would give: a trailing newline yields a final empty
line). -/
def splitLines : List Char → List (List Char)
  | [] => [[]]
  | c :: rest =>
    if c = '\n' then [] :: splitLines rest
    else
      match splitLines rest with
      | [] => [[c]]
      | l :: ls => (c :: l) :: ls

/-- The `#EXTINF:-1,` line prefix of both playlist formats. -/
def extinfMark : List Char := "#EXTINF:-1,".data

/-- Parse legacy playlist lines back into (identifier, name) pairs by the
known line pattern: a line with the `#EXTINF:-1,` prefix remembers its
name; a line with the local-relay URL prefix immediately following such a
name line yields one (identifier, name) pair; any other line is
skipped. -/
def parseLegacyLinesAux : Option (List Char) → List (List Char) → List (String × String)
  | _, [] => []
  | pending, l :: rest =>
    match stripLit extinfMark l with
    | some n => parseLegacyLinesAux (some n) rest
    | none =>
      match pending with
      | some n =>
        match stripLit legacyUriMark.data l with
        | some i => (String.mk i, String.mk n) :: parseLegacyLinesAux none rest
        | none => parseLegacyLinesAux none rest
      | none => parseLegacyLinesAux none rest

/-- Round-trip reader for the legacy writer's output. -/
def parse_legacy (content : String) : List (String × String) :=
  parseLegacyLinesAux none (splitLines content.data)

/-- One observable action of `main`: a console line or a file write. -/
inductive Effect
  | print (line : String)
  | writeFile (filename content : String)
deriving DecidableEq

/-- Whether an effect is a file write. -/
def Effect.isWrite : Effect → Bool
  | .print _ => false
  | .writeFile _ _ => true

/-- Lines 127–139: what `main` does once `scrape` has returned
`channels` — the console lines printed and the files written, in order.
`if channels:` is the emptiness test on the list. -/
def main_effects (channels : List (String × String)) : List Effect :=
  if channels.isEmpty then [Effect.print "No channels found"]
  else
    Effect.print ("Found " ++ toString channels.length ++ " channels:") ::
    (((channels.take 10).enum.map
      (fun ic => Effect.print
        (toString (ic.1 + 1) ++ ". " ++ ic.2.2 ++ ": acestream://" ++ ic.2.1))) ++
    (if channels.length > 10 then
      [Effect.print ("...and " ++ toString (channels.length - 10) ++ " more channels")]
    else []) ++
    [Effect.writeFile "acestream_channels.txt" (save_to_file channels),
     Effect.writeFile "acestream_playlist.m3u" (save_to_m3u channels)])

/-- A sample document: one irrelevant script and one linksData script with
three records, the second a duplicate identifier under a different name. -/
def sampleDoc : List String :=
  ["var x = 1;",
   "const linksData = \x7b \"links\": [\x7b\"name\": \"Channel 1\", \"url\": \"acestream://abc123\"\x7d, \x7b\"name\": \"Channel 1 dup\", \"url\": \"acestream://abc123\"\x7d, \x7b\"name\": \"Ch2\", \"url\": \"acestream://def456\"\x7d] \x7d;"]

/-- A document whose scripts never contain the marker. -/
def noMarkerDoc : List String := ["var x = 1;", "console.log(2);"]

/-- A record whose name field holds an inner, unescaped quote. -/
def quoteRecordText : List Char :=
  "\x7b\"name\": \"fo\"o\", \"url\": \"acestream://abc123\"\x7d".data

/-- A channel list whose name embeds a newline followed by a fake
`#EXTINF` line. -/
def newlineChannels : List (String × String) :=
  [("abc", "x\n#EXTINF:-1,y")]

/-! ## Properties of the extraction loop -/

theorem extractLoop_cons_pos (seen : List String) (name tok : String)
    (rest : List (String × String)) (h : tok ≠ "" ∧ tok ∉ seen) :
    extractLoop seen ((name, tok) :: rest) =
      ((tok, name) :: (extractLoop (tok :: seen) rest).1,
        (extractLoop (tok :: seen) rest).2) := by
  simp only [extractLoop]
  rw [if_pos h]

theorem extractLoop_cons_neg (seen : List String) (name tok : String)
    (rest : List (String × String)) (h : ¬(tok ≠ "" ∧ tok ∉ seen)) :
    extractLoop seen ((name, tok) :: rest) = extractLoop seen rest := by
  simp only [extractLoop]
  rw [if_neg h]

/-- Every extracted channel has a non-empty identifier that is new to the
seen set, and its name is the one of the identifier's first occurrence in
the record list. -/
theorem extractLoop_spec :
    ∀ (recs : List (String × String)) (seen : List String) (p : String × String),
      p ∈ (extractLoop seen recs).1 →
      p.1 ≠ "" ∧ p.1 ∉ seen ∧ recs.find? (fun q => q.2 == p.1) = some (p.2, p.1) := by
  intro recs
  induction recs with
  | nil => intro seen p hp; simp [extractLoop] at hp
  | cons hd rest ih =>
    intro seen p hp
    obtain ⟨name, tok⟩ := hd
    by_cases h : tok ≠ "" ∧ tok ∉ seen
    · rw [extractLoop_cons_pos seen name tok rest h] at hp
      rcases List.mem_cons.mp hp with hEq | hMem
      · subst hEq
        refine ⟨h.1, h.2, ?_⟩
        apply List.find?_cons_of_pos
        simp
      · obtain ⟨h1, h2, h3⟩ := ih (tok :: seen) p hMem
        have hne : tok ≠ p.1 := fun hc => h2 (hc ▸ List.mem_cons_self _ _)
        refine ⟨h1, fun hc => h2 (List.mem_cons_of_mem _ hc), ?_⟩
        rw [List.find?_cons_of_neg _ (by simp [hne]), h3]
    · rw [extractLoop_cons_neg seen name tok rest h] at hp
      obtain ⟨h1, h2, h3⟩ := ih seen p hp
      have hne : tok ≠ p.1 := by
        intro hc
        subst hc
        rcases not_and_or.mp h with hc2 | hc2
        · exact h1 (not_not.mp hc2)
        · exact h2 (not_not.mp hc2)
      exact ⟨h1, h2, by rw [List.find?_cons_of_neg _ (by simp [hne]), h3]⟩

/-- The extracted identifiers are pairwise distinct. -/
theorem extractLoop_nodup :
    ∀ (recs : List (String × String)) (seen : List String),
      (((extractLoop seen recs).1).map Prod.fst).Nodup := by
  intro recs
  induction recs with
  | nil => intro seen; simp [extractLoop]
  | cons hd rest ih =>
    intro seen
    obtain ⟨name, tok⟩ := hd
    by_cases h : tok ≠ "" ∧ tok ∉ seen
    · rw [extractLoop_cons_pos seen name tok rest h]
      refine List.nodup_cons.mpr ⟨?_, ih (tok :: seen)⟩
      intro hc
      obtain ⟨p, hp, hfst⟩ := List.mem_map.mp hc
      have := (extractLoop_spec rest (tok :: seen) p hp).2.1
      exact this (hfst ▸ List.mem_cons_self _ _)
    · rw [extractLoop_cons_neg seen name tok rest h]
      exact ih seen

/-- The extracted channels, read back as (name, identifier) records, form
a sublist of the occurrence list: extraction preserves occurrence order
and invents nothing. -/
theorem extractLoop_sublist :
    ∀ (recs : List (String × String)) (seen : List String),
      (((extractLoop seen recs).1).map Prod.swap).Sublist recs := by
  intro recs
  induction recs with
  | nil => intro seen; simp [extractLoop]
  | cons hd rest ih =>
    intro seen
    obtain ⟨name, tok⟩ := hd
    by_cases h : tok ≠ "" ∧ tok ∉ seen
    · rw [extractLoop_cons_pos seen name tok rest h]
      simpa using List.Sublist.cons₂ (name, tok) (ih (tok :: seen))
    · rw [extractLoop_cons_neg seen name tok rest h]
      exact List.Sublist.cons (name, tok) (ih seen)

/-- Every occurrence with a non-empty identifier is represented: its
identifier was already seen or some extracted channel carries it. -/
theorem extractLoop_complete :
    ∀ (recs : List (String × String)) (seen : List String) (q : String × String),
      q ∈ recs → q.2 ≠ "" →
      q.2 ∈ seen ∨ ∃ p ∈ (extractLoop seen recs).1, p.1 = q.2 := by
  intro recs
  induction recs with
  | nil => intro seen q hq; exact absurd hq (List.not_mem_nil q)
  | cons hd rest ih =>
    intro seen q hq hq2
    obtain ⟨name, tok⟩ := hd
    by_cases h : tok ≠ "" ∧ tok ∉ seen
    · rw [extractLoop_cons_pos seen name tok rest h]
      rcases List.mem_cons.mp hq with hEq | hMem
      · subst hEq
        exact Or.inr ⟨(tok, name), List.mem_cons_self _ _, rfl⟩
      · rcases ih (tok :: seen) q hMem hq2 with hSeen | ⟨p, hp, hpq⟩
        · rcases List.mem_cons.mp hSeen with hEq | hSeen
          · exact Or.inr ⟨(tok, name), List.mem_cons_self _ _, hEq.symm⟩
          · exact Or.inl hSeen
        · exact Or.inr ⟨p, List.mem_cons_of_mem _ hp, hpq⟩
    · rw [extractLoop_cons_neg seen name tok rest h]
      rcases List.mem_cons.mp hq with hEq | hMem
      · subst hEq
        rcases not_and_or.mp h with hc | hc
        · exact absurd (not_not.mp hc) hq2
        · exact Or.inl (not_not.mp hc)
      · exact ih seen q hMem hq2

/-- The seen set only grows. -/
theorem extractLoop_seen_mono :
    ∀ (recs : List (String × String)) (seen : List String) (x : String),
      x ∈ seen → x ∈ (extractLoop seen recs).2 := by
  intro recs
  induction recs with
  | nil => intro seen x hx; simpa [extractLoop] using hx
  | cons hd rest ih =>
    intro seen x hx
    obtain ⟨name, tok⟩ := hd
    by_cases h : tok ≠ "" ∧ tok ∉ seen
    · rw [extractLoop_cons_pos seen name tok rest h]
      exact ih (tok :: seen) x (List.mem_cons_of_mem _ hx)
    · rw [extractLoop_cons_neg seen name tok rest h]
      exact ih seen x hx

/-- The extracted channels are strictly ordered by the position of their
identifier's first occurrence in the record list: entries appear in
first-occurrence order. -/
theorem extractLoop_pairwise :
    ∀ (recs : List (String × String)) (seen : List String),
      List.Pairwise (fun p q =>
          recs.findIdx (fun r => r.2 == p.1) < recs.findIdx (fun r => r.2 == q.1))
        ((extractLoop seen recs).1) := by
  intro recs
  induction recs with
  | nil => intro seen; simp [extractLoop]
  | cons hd rest ih =>
    intro seen
    obtain ⟨name, tok⟩ := hd
    by_cases h : tok ≠ "" ∧ tok ∉ seen
    · rw [extractLoop_cons_pos seen name tok rest h]
      constructor
      · intro q hq
        have hqt : q.1 ≠ tok := fun hc =>
          (extractLoop_spec rest (tok :: seen) q hq).2.1 (hc ▸ List.mem_cons_self _ _)
        rw [List.findIdx_cons, List.findIdx_cons]
        have e1 : ((name, tok).2 == (tok, name).1) = true := by simp
        have e2 : ((name, tok).2 == q.1) = false := by
          simp only [beq_eq_false_iff_ne]
          exact fun hc => hqt hc.symm
        rw [e1, e2]
        simp
      · refine List.Pairwise.imp_of_mem ?_ (ih (tok :: seen))
        intro a b ha hb hR
        have hat : a.1 ≠ tok := fun hc =>
          (extractLoop_spec rest (tok :: seen) a ha).2.1 (hc ▸ List.mem_cons_self _ _)
        have hbt : b.1 ≠ tok := fun hc =>
          (extractLoop_spec rest (tok :: seen) b hb).2.1 (hc ▸ List.mem_cons_self _ _)
        rw [List.findIdx_cons, List.findIdx_cons]
        have e1 : ((name, tok).2 == a.1) = false := by
          simp only [beq_eq_false_iff_ne]
          exact fun hc => hat hc.symm
        have e2 : ((name, tok).2 == b.1) = false := by
          simp only [beq_eq_false_iff_ne]
          exact fun hc => hbt hc.symm
        rw [e1, e2]
        simpa using hR
    · rw [extractLoop_cons_neg seen name tok rest h]
      refine List.Pairwise.imp_of_mem ?_ (ih seen)
      intro a b ha hb hR
      have hat : a.1 ≠ tok := by
        intro hc
        rcases not_and_or.mp h with hc2 | hc2
        · exact (extractLoop_spec rest seen a ha).1 (hc.trans (not_not.mp hc2))
        · exact (extractLoop_spec rest seen a ha).2.1 (by rw [hc]; exact not_not.mp hc2)
      have hbt : b.1 ≠ tok := by
        intro hc
        rcases not_and_or.mp h with hc2 | hc2
        · exact (extractLoop_spec rest seen b hb).1 (hc.trans (not_not.mp hc2))
        · exact (extractLoop_spec rest seen b hb).2.1 (by rw [hc]; exact not_not.mp hc2)
      rw [List.findIdx_cons, List.findIdx_cons]
      have e1 : ((name, tok).2 == a.1) = false := by
        simp only [beq_eq_false_iff_ne]
        exact fun hc => hat hc.symm
      have e2 : ((name, tok).2 == b.1) = false := by
        simp only [beq_eq_false_iff_ne]
        exact fun hc => hbt hc.symm
      rw [e1, e2]
      simpa using hR

/-- `extract_from_script` is the extraction loop run on the document's
occurrence list. -/
theorem extract_from_script_eq (seen doc : List String) :
    extract_from_script seen doc = extractLoop seen (recordsOfDoc doc) := by
  unfold extract_from_script recordsOfDoc
  cases findLinksScript doc with
  | none => simp [extractLoop]
  | some sc =>
    cases hs : searchLinksData sc.data with
    | none => simp [hs, extractLoop]
    | some j => simp [hs]

/-- C1: for every input document the extractor's output has pairwise
distinct identifiers; read back as records it is a sublist of the
document's occurrence list; any two entries are strictly ordered by the
position of their identifier's first occurrence in the document — so
entries appear in first-occurrence order; each entry carries the name of
its identifier's first occurrence; and every identifier occurring in the
document is represented. -/
theorem extractor_dedup_first_occurrence (doc : List String) :
    (((extract_from_script [] doc).1).map Prod.fst).Nodup ∧
    (((extract_from_script [] doc).1).map Prod.swap).Sublist (recordsOfDoc doc) ∧
    List.Pairwise (fun p q =>
        (recordsOfDoc doc).findIdx (fun r => r.2 == p.1) <
          (recordsOfDoc doc).findIdx (fun r => r.2 == q.1))
      ((extract_from_script [] doc).1) ∧
    (∀ p ∈ (extract_from_script [] doc).1,
      (recordsOfDoc doc).find? (fun q => q.2 == p.1) = some (p.2, p.1)) ∧
    (∀ q ∈ recordsOfDoc doc, q.2 ≠ "" →
      ∃ p ∈ (extract_from_script [] doc).1, p.1 = q.2) := by
  rw [extract_from_script_eq]
  refine ⟨extractLoop_nodup _ _, extractLoop_sublist _ _, extractLoop_pairwise _ _,
    ?_, ?_⟩
  · intro p hp
    exact (extractLoop_spec _ _ p hp).2.2
  · intro q hq hq2
    rcases extractLoop_complete _ [] q hq hq2 with h | h
    · exact absurd h (List.not_mem_nil _)
    · exact h

set_option maxRecDepth 100000 in
theorem extractor_dedup_first_occurrence_check :
    (recordsOfDoc sampleDoc).find? (fun q => q.2 == "abc123") =
      some ("Channel 1", "abc123") :=
  (extractor_dedup_first_occurrence sampleDoc).2.2.2.1 ("abc123", "Channel 1") (by decide)

/-- C7: extraction is deterministic — two runs on the same document text,
each starting from a fresh (empty) seen set, return the same ordered
list. -/
theorem extraction_idempotent (doc : List String) (s1 s2 : List String)
    (h1 : s1 = []) (h2 : s2 = []) :
    (extract_from_script s1 doc).1 = (extract_from_script s2 doc).1 := by
  subst h1
  subst h2
  rfl

theorem extraction_idempotent_check :
    (extract_from_script [] sampleDoc).1 = (extract_from_script [] sampleDoc).1 :=
  extraction_idempotent sampleDoc [] [] rfl rfl

/-- C9: the seen-identifier set starts empty at construction and is only
ever grown: `extract_from_script`, the only operation touching it, keeps
every identifier already present. -/
theorem seen_set_monotone :
    init_identified_ids = [] ∧
    ∀ (seen doc : List String) (x : String),
      x ∈ seen → x ∈ (extract_from_script seen doc).2 := by
  refine ⟨rfl, ?_⟩
  intro seen doc x hx
  rw [extract_from_script_eq]
  exact extractLoop_seen_mono _ _ _ hx

theorem seen_set_monotone_check : "a" ∈ (extract_from_script ["a"] noMarkerDoc).2 :=
  seen_set_monotone.2 ["a"] noMarkerDoc "a" (by decide)

/-! ## Properties of the retry loop -/

theorem scrapeGo_succ_some (fetch : Nat → Option (List String))
    (n attempt timeout : Nat) (seen : List String) (acc : List (String × String))
    (d : List String) (hf : fetch attempt = some d) :
    scrapeGo fetch (n + 1) attempt timeout seen acc =
      (acc ++ (extract_from_script seen d).1, [timeout]) := by
  simp only [scrapeGo, hf]

theorem scrapeGo_succ_none (fetch : Nat → Option (List String))
    (n attempt timeout : Nat) (seen : List String) (acc : List (String × String))
    (hf : fetch attempt = none) :
    scrapeGo fetch (n + 1) attempt timeout seen acc =
      ((scrapeGo fetch n (attempt + 1) (timeout + 5) seen acc).1,
        timeout :: (scrapeGo fetch n (attempt + 1) (timeout + 5) seen acc).2) := by
  simp only [scrapeGo, hf]

/-- Shifting the linear timeout sequence by one attempt. -/
theorem range_map_timeout (t k : Nat) :
    t :: (List.range k).map (fun i => t + 5 + 5 * i) =
      (List.range (k + 1)).map (fun i => t + 5 * i) := by
  rw [List.range_succ_eq_map, List.map_cons, List.map_map]
  simp only [Nat.mul_zero, Nat.add_zero]
  congr 1
  apply List.map_congr_left
  intro a _
  simp only [Function.comp_apply]
  omega

/-- If the first `k` attempts fail and attempt `k` (counting from
`attempt`) succeeds on document `d`, the loop returns exactly that
attempt's extraction (appended to the accumulator) and makes `k + 1`
attempts with linearly increasing timeouts. -/
theorem scrapeGo_success (fetch : Nat → Option (List String)) (d : List String) :
    ∀ (k n attempt timeout : Nat) (seen : List String) (acc : List (String × String)),
      k < n →
      (∀ j, j < k → fetch (attempt + j) = none) →
      fetch (attempt + k) = some d →
      scrapeGo fetch n attempt timeout seen acc =
        (acc ++ (extract_from_script seen d).1,
          (List.range (k + 1)).map (fun i => timeout + 5 * i)) := by
  intro k
  induction k with
  | zero =>
    intro n attempt timeout seen acc hkn hfail hsucc
    obtain ⟨m, rfl⟩ : ∃ m, n = m + 1 := ⟨n - 1, by omega⟩
    rw [scrapeGo_succ_some fetch m attempt timeout seen acc d (by simpa using hsucc)]
    rw [show List.range 1 = [0] from rfl]
    simp
  | succ k ih =>
    intro n attempt timeout seen acc hkn hfail hsucc
    obtain ⟨m, rfl⟩ : ∃ m, n = m + 1 := ⟨n - 1, by omega⟩
    have h0 : fetch attempt = none := by simpa using hfail 0 (by omega)
    rw [scrapeGo_succ_none fetch m attempt timeout seen acc h0]
    rw [ih m (attempt + 1) (timeout + 5) seen acc (by omega)
      (fun j hj => by
        rw [show attempt + 1 + j = attempt + (j + 1) by omega]
        exact hfail (j + 1) (by omega))
      (by rw [show attempt + 1 + k = attempt + (k + 1) by omega]; exact hsucc)]
    rw [show k + 1 + 1 = (k + 1) + 1 from rfl, ← range_map_timeout timeout (k + 1)]

/-- If every attempt fails, the loop returns the accumulator unchanged
after making all `n` permitted attempts. -/
theorem scrapeGo_allFail (fetch : Nat → Option (List String))
    (hall : ∀ j, fetch j = none) :
    ∀ (n attempt timeout : Nat) (seen : List String) (acc : List (String × String)),
      scrapeGo fetch n attempt timeout seen acc =
        (acc, (List.range n).map (fun i => timeout + 5 * i)) := by
  intro n
  induction n with
  | zero => intro attempt timeout seen acc; simp [scrapeGo]
  | succ m ih =>
    intro attempt timeout seen acc
    rw [scrapeGo_succ_none fetch m attempt timeout seen acc (hall attempt)]
    rw [ih (attempt + 1) (timeout + 5) seen acc]
    rw [← range_map_timeout timeout m]

/-- Whatever the fetch outcomes, the recorded timeouts are an initial
segment of the arithmetic sequence `timeout, timeout + 5, …`. -/
theorem scrapeGo_trace (fetch : Nat → Option (List String)) :
    ∀ (n attempt timeout : Nat) (seen : List String) (acc : List (String × String)),
      ∃ m, (scrapeGo fetch n attempt timeout seen acc).2 =
        (List.range m).map (fun i => timeout + 5 * i) := by
  intro n
  induction n with
  | zero => intro attempt timeout seen acc; exact ⟨0, by simp [scrapeGo]⟩
  | succ m ih =>
    intro attempt timeout seen acc
    cases hf : fetch attempt with
    | some d =>
      refine ⟨1, ?_⟩
      rw [scrapeGo_succ_some fetch m attempt timeout seen acc d hf]
      rw [show List.range 1 = [0] from rfl]
      simp
    | none =>
      obtain ⟨mm, hmm⟩ := ih (attempt + 1) (timeout + 5) seen acc
      refine ⟨mm + 1, ?_⟩
      rw [scrapeGo_succ_none fetch m attempt timeout seen acc hf]
      simp only [hmm]
      rw [← range_map_timeout timeout mm]

/-- C2: if some fetch attempt succeeds (the first `k` failing, `k` within
the retry budget), `scrape` returns that attempt's extraction immediately,
making exactly `k + 1` attempts — even when the extraction is empty;
moreover a document with no marker-bearing script, or one where the inner
object-literal pattern fails, extracts to the empty list (and, the
extractor being a total function, no error is raised). -/
theorem scrape_returns_on_success (fetch : Nat → Option (List String))
    (timeout retries k : Nat) (d : List String)
    (hk : k ≤ retries) (hfail : ∀ j, j < k → fetch j = none)
    (hsucc : fetch k = some d) :
    scrape fetch timeout retries =
      ((extract_from_script [] d).1,
        (List.range (k + 1)).map (fun i => timeout + 5 * i)) ∧
    (∀ (seen dd : List String), (∀ sc ∈ dd, hasSub marker sc.data = false) →
      extract_from_script seen dd = ([], seen)) ∧
    (∀ (seen dd : List String) (sc : String),
      findLinksScript dd = some sc → searchLinksData sc.data = none →
      extract_from_script seen dd = ([], seen)) := by
  refine ⟨?_, ?_, ?_⟩
  · unfold scrape
    rw [scrapeGo_success fetch d k (retries + 1) 0 timeout [] [] (by omega)
      (fun j hj => by simpa using hfail j hj) (by simpa using hsucc)]
    simp
  · intro seen dd hnone
    have hfind : findLinksScript dd = none := by
      apply List.find?_eq_none.mpr
      intro sc hsc
      simp [hnone sc hsc]
    unfold extract_from_script
    rw [hfind]
  · intro seen dd sc hfind hsearch
    unfold extract_from_script
    rw [hfind]
    simp [hsearch]

set_option maxRecDepth 100000 in
theorem scrape_returns_on_success_check :
    scrape (fun j => if j = 0 then some sampleDoc else none) 10 3 =
      ([("abc123", "Channel 1"), ("def456", "Ch2")], [10]) := by
  rw [(scrape_returns_on_success (fun j => if j = 0 then some sampleDoc else none)
    10 3 0 sampleDoc (by omega) (fun j hj => absurd hj (by omega)) rfl).1]
  decide

/-- C3: when every fetch attempt fails, `scrape` stops after exhausting
the retry budget — `retries + 1` attempts — and returns the accumulated
channel list, which is empty because extraction only runs after a
successful fetch; it does not raise. -/
theorem scrape_exhausts_retries (fetch : Nat → Option (List String))
    (timeout retries : Nat) (hall : ∀ j, fetch j = none) :
    scrape fetch timeout retries =
      ([], (List.range (retries + 1)).map (fun i => timeout + 5 * i)) := by
  unfold scrape
  rw [scrapeGo_allFail fetch hall]

theorem scrape_exhausts_retries_check :
    scrape (fun _ => none) 10 3 = ([], [10, 15, 20, 25]) := by
  rw [scrape_exhausts_retries (fun _ => none) 10 3 (fun _ => rfl)]
  decide

/-- C4: within one `scrape` call the timeouts used on successive attempts
are `timeout, timeout + 5, timeout + 10, …` — the timeout grows by exactly
5 after each failed attempt and is never reset or decreased; in
particular, when the first two attempts fail and the third succeeds, the
third attempt runs with `timeout + 2 × 5`. -/
theorem timeout_backoff (fetch : Nat → Option (List String))
    (timeout retries : Nat) :
    (∃ m, (scrape fetch timeout retries).2 =
      (List.range m).map (fun i => timeout + 5 * i)) ∧
    (∀ d : List String, 2 ≤ retries → fetch 0 = none → fetch 1 = none →
      fetch 2 = some d →
      (scrape fetch timeout retries).2 = [timeout, timeout + 5, timeout + 5 * 2]) := by
  constructor
  · unfold scrape
    exact scrapeGo_trace fetch (retries + 1) 0 timeout [] []
  · intro d h2 h0 h1 hs
    have hfail : ∀ j, j < 2 → fetch j = none := by
      intro j hj
      match j, hj with
      | 0, _ => exact h0
      | 1, _ => exact h1
    unfold scrape
    rw [scrapeGo_success fetch d 2 (retries + 1) 0 timeout [] [] (by omega)
      (fun j hj => by simpa using hfail j hj) (by simpa using hs)]
    simp [List.range_succ]

theorem timeout_backoff_check :
    (scrape (fun j => if j = 2 then some sampleDoc else none) 10 3).2 =
      [10, 15, 20] := by
  have h := (timeout_backoff (fun j => if j = 2 then some sampleDoc else none) 10 3).2
    sampleDoc (by omega) rfl rfl rfl
  simpa using h

/-! ## Properties of the writers and the legacy round trip -/

/-- Sequentially appended writes are the initial write followed by the
join of the per-channel chunks. -/
theorem foldl_append_join (g : String × String → String) :
    ∀ (l : List (String × String)) (init : String),
      List.foldl (fun acc c => acc ++ g c) init l = init ++ String.join (l.map g) := by
  intro l
  induction l with
  | nil => intro init; simp [String.join]
  | cons c cs ih =>
    intro init
    rw [List.foldl_cons, List.map_cons, ih (init ++ g c)]
    apply String.ext
    simp

/-- Joining a non-empty list of strings peels off the head. -/
theorem join_cons (x : String) (l : List String) :
    String.join (x :: l) = x ++ String.join l := by
  apply String.ext
  simp

/-- C5: each writer's output is exactly the `#EXTM3U` header line
followed, for each (identifier, name) pair in list order, by the
`#EXTINF:-1,<name>` line and one playback line — the local-relay URL for
the legacy writer, the `acestream://` URI for the native one; on the empty
list only the header line is written. -/
theorem writer_output_format (channels : List (String × String)) :
    save_to_file channels =
      "#EXTM3U\n" ++ String.join (channels.map
        (fun c => "#EXTINF:-1," ++ c.2 ++ "\n" ++
          "http://127.0.0.1:6878/ace/getstream?id=" ++ c.1 ++ "\n")) ∧
    save_to_m3u channels =
      "#EXTM3U\n" ++ String.join (channels.map
        (fun c => "#EXTINF:-1," ++ c.2 ++ "\n" ++ "acestream://" ++ c.1 ++ "\n")) ∧
    save_to_file [] = "#EXTM3U\n" ∧ save_to_m3u [] = "#EXTM3U\n" := by
  refine ⟨?_, ?_, by decide, by decide⟩
  · unfold save_to_file legacyUriMark
    rw [foldl_append_join, show ("#EXTM3U" ++ "\n" : String) = "#EXTM3U\n" by decide]
  · unfold save_to_m3u
    rw [foldl_append_join, show ("#EXTM3U" ++ "\n" : String) = "#EXTM3U\n" by decide]

theorem writer_output_format_check : save_to_file [] = "#EXTM3U\n" :=
  (writer_output_format []).2.2.1

theorem splitLines_ne_nil : ∀ s : List Char, splitLines s ≠ [] := by
  intro s
  induction s with
  | nil => simp [splitLines]
  | cons c rest ih =>
    by_cases hc : c = '\n'
    · simp [splitLines, hc]
    · simp only [splitLines, if_neg hc]
      cases h : splitLines rest with
      | nil => simp
      | cons l ls => simp

/-- Splitting at an explicit newline after a newline-free chunk. -/
theorem splitLines_append (a rest : List Char) (ha : '\n' ∉ a) :
    splitLines (a ++ '\n' :: rest) = a :: splitLines rest := by
  induction a with
  | nil => simp [splitLines]
  | cons c a' ih =>
    have hc : c ≠ '\n' := by
      rintro rfl
      exact ha (List.mem_cons_self _ _)
    have ha' : '\n' ∉ a' := fun hmem => ha (List.mem_cons_of_mem _ hmem)
    simp only [List.cons_append, splitLines, if_neg hc, List.append_eq, ih ha']

/-- The same, with the chunk arriving as two newline-free pieces in the
right-associated form produced by `simp`. -/
theorem splitLines_append₂ (a b rest : List Char) (ha : '\n' ∉ a) (hb : '\n' ∉ b) :
    splitLines (a ++ (b ++ '\n' :: rest)) = (a ++ b) :: splitLines rest := by
  rw [← List.append_assoc]
  apply splitLines_append
  intro hmem
  rcases List.mem_append.mp hmem with h | h
  · exact ha h
  · exact hb h

theorem stripLit_append (p s : List Char) : stripLit p (p ++ s) = some s := by
  induction p with
  | nil => rfl
  | cons c p' ih => simp [stripLit, ih]

/-- A legacy playback line never carries the `#EXTINF:-1,` prefix: the
two markers differ at their first character. -/
theorem stripLit_extinf_url (s : List Char) :
    stripLit extinfMark (legacyUriMark.data ++ s) = none := rfl

/-- The string `String.mk` is determined by its characters. -/
theorem mk_data (s : String) : String.mk s.data = s := rfl

/-- Round trip of the body lines: parsing the lines of the joined entries
recovers the channel list, provided no identifier or name embeds a
newline. -/
theorem parseLegacyLines_body :
    ∀ (chans : List (String × String)),
      (∀ c ∈ chans, '\n' ∉ c.1.data ∧ '\n' ∉ c.2.data) →
      parseLegacyLinesAux none (splitLines (String.join (chans.map
        (fun c => "#EXTINF:-1," ++ c.2 ++ "\n" ++ legacyUriMark ++ c.1 ++ "\n"))).data) =
        chans := by
  intro chans
  induction chans with
  | nil => intro _; rfl
  | cons c cs ih =>
    intro h
    obtain ⟨h1, h2⟩ := h c (List.mem_cons_self _ _)
    have hrest := fun d hd => h d (List.mem_cons_of_mem _ hd)
    have hdata : (String.join (((c :: cs)).map
        (fun c => "#EXTINF:-1," ++ c.2 ++ "\n" ++ legacyUriMark ++ c.1 ++ "\n"))).data =
        extinfMark ++ (c.2.data ++ '\n' :: (legacyUriMark.data ++ (c.1.data ++ '\n' ::
          (String.join (cs.map
            (fun c => "#EXTINF:-1," ++ c.2 ++ "\n" ++ legacyUriMark ++ c.1 ++ "\n"))).data))) := by
      rw [List.map_cons, join_cons]
      simp only [String.data_append, extinfMark,
        show ("\n" : String).data = ['\n'] from rfl,
        List.append_assoc, List.singleton_append, List.cons_append, List.nil_append]
    rw [hdata]
    rw [splitLines_append₂ extinfMark c.2.data _ (by decide) h2]
    rw [splitLines_append₂ legacyUriMark.data c.1.data _ (by decide) h1]
    simp only [parseLegacyLinesAux, stripLit_append extinfMark c.2.data,
      stripLit_extinf_url c.1.data, stripLit_append legacyUriMark.data c.1.data,
      mk_data, ih hrest]

/-- C6 (amended): for every channel list in which no identifier and no
name contains a newline character, parsing the legacy writer's output by
the known line pattern recovers each original (identifier, name) pair
exactly, in order.  (Extractor-produced channels always satisfy the
proviso: names are captured by a `.` pattern that cannot cross a newline
and identifiers consist of word characters.) -/
theorem legacy_roundtrip (chans : List (String × String))
    (h : ∀ c ∈ chans, '\n' ∉ c.1.data ∧ '\n' ∉ c.2.data) :
    parse_legacy (save_to_file chans) = chans := by
  unfold parse_legacy save_to_file legacyUriMark
  rw [foldl_append_join]
  have hdata : (("#EXTM3U" ++ "\n" : String) ++ String.join (chans.map
      (fun c => "#EXTINF:-1," ++ c.2 ++ "\n" ++
        "http://127.0.0.1:6878/ace/getstream?id=" ++ c.1 ++ "\n"))).data =
      "#EXTM3U".data ++ '\n' :: (String.join (chans.map
      (fun c => "#EXTINF:-1," ++ c.2 ++ "\n" ++
        "http://127.0.0.1:6878/ace/getstream?id=" ++ c.1 ++ "\n"))).data := by
    simp only [String.data_append, show ("\n" : String).data = ['\n'] from rfl,
      List.append_assoc, List.singleton_append]
  rw [hdata]
  rw [splitLines_append "#EXTM3U".data _ (by decide)]
  have hbody := parseLegacyLines_body chans h
  unfold legacyUriMark at hbody
  cases hsplit : splitLines (String.join (chans.map
      (fun c => "#EXTINF:-1," ++ c.2 ++ "\n" ++
        "http://127.0.0.1:6878/ace/getstream?id=" ++ c.1 ++ "\n"))).data with
  | nil => exact absurd hsplit (splitLines_ne_nil _)
  | cons l2 rest2 =>
    rw [hsplit] at hbody
    simp only [parseLegacyLinesAux,
      show stripLit extinfMark "#EXTM3U".data = none from rfl]
    exact hbody

theorem legacy_roundtrip_check :
    parse_legacy (save_to_file [("abc123", "Channel 1")]) = [("abc123", "Channel 1")] :=
  legacy_roundtrip [("abc123", "Channel 1")] (by decide)

set_option maxRecDepth 100000 in
/-- C6 counterexample: on the channel list [("abc", "x\n#EXTINF:-1,y")] —
a name embedding a newline and a fake `#EXTINF` line — parsing the legacy
writer's output recovers [("abc", "y")], not the original pair, so the
round trip fails for arbitrary channel lists. -/
theorem legacy_roundtrip_cex :
    parse_legacy (save_to_file newlineChannels) ≠ newlineChannels ∧
    parse_legacy (save_to_file newlineChannels) = [("abc", "y")] := by
  constructor
  · decide
  · decide

/-! ## The lazy name capture -/

theorem lazyName_step_some (acc : List Char) (c : Char) (s' : List Char)
    (tok : String) (rest : List Char)
    (h : recTail (c :: s') = some (tok, rest)) :
    lazyName acc (c :: s') = some ((String.mk acc.reverse, tok), rest) := by
  rw [lazyName, h]

theorem lazyName_step_none (acc : List Char) (c : Char) (s' : List Char)
    (h : recTail (c :: s') = none) :
    lazyName acc (c :: s') = if c = '\n' then none else lazyName (c :: acc) s' := by
  rw [lazyName, h]

theorem lazyName_nil (acc : List Char) : lazyName acc [] = none := rfl

/-- What a successful lazy name capture means: the input splits as the
captured characters (newline-free) followed by a tail on which the url
continuation matches, and the capture is minimal — the continuation fails
at every earlier split point. -/
theorem lazyName_spec :
    ∀ (s acc : List Char) (name tok : String) (rest : List Char),
      lazyName acc s = some ((name, tok), rest) →
      ∃ u v, s = u ++ v ∧ name.data = acc.reverse ++ u ∧ '\n' ∉ u ∧
        recTail v = some (tok, rest) ∧
        (∀ u1 u2, u = u1 ++ u2 → u2 ≠ [] → recTail (u2 ++ v) = none) := by
  intro s
  induction s with
  | nil =>
    intro acc name tok rest h
    rw [lazyName_nil] at h
    exact absurd h (by simp)
  | cons c s' ih =>
    intro acc name tok rest h
    cases hrt : recTail (c :: s') with
    | some pr =>
      rw [lazyName_step_some acc c s' pr.1 pr.2 (by rw [hrt])] at h
      obtain ⟨⟨hname, htok⟩, hrest⟩ :
          (String.mk acc.reverse = name ∧ pr.1 = tok) ∧ pr.2 = rest := by
        have := Option.some.inj h
        exact ⟨⟨congrArg (fun x => x.1.1) this, congrArg (fun x => x.1.2) this⟩,
          congrArg (fun x => x.2) this⟩
      refine ⟨[], c :: s', by simp, ?_, by simp, ?_, ?_⟩
      · rw [← hname]
        simp
      · rw [← htok, ← hrest, hrt]
      · intro u1 u2 hu hne
        exact absurd (List.append_eq_nil.mp hu.symm).2 hne
    | none =>
      rw [lazyName_step_none acc c s' hrt] at h
      by_cases hc : c = '\n'
      · rw [if_pos hc] at h
        exact absurd h (by simp)
      · rw [if_neg hc] at h
        obtain ⟨u', v, hsplit, hname, hnl, hvt, hmin⟩ := ih (c :: acc) name tok rest h
        refine ⟨c :: u', v, by rw [List.cons_append, ← hsplit], ?_, ?_, hvt, ?_⟩
        · rw [hname]
          simp
        · intro hmem
          rcases List.mem_cons.mp hmem with h' | h'
          · exact hc h'.symm
          · exact hnl h'
        · intro u1 u2 hu hne
          cases u1 with
          | nil =>
            have hu2 : u2 = c :: u' := by simpa using hu.symm
            rw [hu2, List.cons_append, ← hsplit]
            exact hrt
          | cons d u1' =>
            have h2 : u' = u1' ++ u2 := by
              have := List.cons.inj hu
              exact this.2
            exact hmin u1' u2 h2 hne

/-- C8 (amended): the record pattern's captured name is the lazily minimal
capture after the opening quote: it can never contain a newline, and it is
the shortest string whose continuation matches
`",\s*"url":\s*"acestream://<token>"\s*\x7d` — the continuation fails at
every earlier split point.  Consequently a name containing an inner quote
IS matched (and extracted) whenever the quote is not immediately followed
by the url-key continuation, so extracted names can contain double
quotes. -/
theorem record_name_lazy_minimal (s : List Char) (name tok : String) (rest : List Char)
    (h : matchRecordAt s = some ((name, tok), rest)) :
    '\n' ∉ name.data ∧
    ∃ v, recTail v = some (tok, rest) ∧
      ∀ u1 u2, name.data = u1 ++ u2 → u2 ≠ [] → recTail (u2 ++ v) = none := by
  unfold matchRecordAt at h
  split at h
  · rename_i s1
    split at h
    · exact absurd h (by simp)
    · rename_i s2 hstrip
      split at h
      · rename_i s3 hdrop
        obtain ⟨u, v, hsplit, hname, hnl, hvt, hmin⟩ := lazyName_spec s3 [] name tok rest h
        have hud : name.data = u := by simpa using hname
        refine ⟨by rw [hud]; exact hnl, v, hvt, ?_⟩
        intro u1 u2 hu hne
        exact hmin u1 u2 (by rw [← hud]; exact hu) hne
      · exact absurd h (by simp)
  · exact absurd h (by simp)

set_option maxRecDepth 100000 in
theorem record_name_lazy_minimal_check : '\n' ∉ ("fo\"o" : String).data :=
  (record_name_lazy_minimal quoteRecordText "fo\"o" "abc123" []
    (by decide)).1

set_option maxRecDepth 100000 in
/-- C8 counterexample: the record `\x7b"name": "fo"o", "url":
"acestream://abc123"\x7d`, whose name field holds an inner unescaped
quote, IS matched by the record pattern — it is not skipped — and the
extracted name `fo"o` contains a double quote. -/
theorem record_with_inner_quote_matches :
    findRecords quoteRecordText = [("fo\"o", "abc123")] ∧
    ∃ p ∈ findRecords quoteRecordText, '"' ∈ p.1.data := by
  refine ⟨by decide, ⟨("fo\"o", "abc123"), by decide, by decide⟩⟩

/-! ## The driver -/

/-- C10: the driver writes the two playlist files only when the scraped
list is non-empty: on the empty list `main` performs exactly one effect —
printing "No channels found" — and a file write occurs among `main`'s
effects exactly when the channel list is non-empty. -/
theorem no_writes_on_empty :
    main_effects [] = [Effect.print "No channels found"] ∧
    ∀ channels : List (String × String),
      (∃ e ∈ main_effects channels, e.isWrite = true) ↔ channels ≠ [] := by
  refine ⟨rfl, ?_⟩
  intro channels
  constructor
  · rintro ⟨e, he, hw⟩ rfl
    simp [main_effects] at he
    rw [he] at hw
    simp [Effect.isWrite] at hw
  · intro hne
    obtain ⟨a, l, rfl⟩ := List.exists_cons_of_ne_nil hne
    refine ⟨Effect.writeFile "acestream_channels.txt" (save_to_file (a :: l)),
      ?_, rfl⟩
    simp [main_effects]

theorem no_writes_on_empty_check :
    main_effects [] = [Effect.print "No channels found"] :=
  no_writes_on_empty.1

end IpfsScraper
